import Mathlib

/-!
Verification of `docs/py2md.py`, a markdown documentation generator for
Python sources.  Python strings are modelled as `List Char`, string arrays
(lists of lines) as `List (List Char)`, and fallible operations (Python
indexing that can raise `IndexError`) as `Option`-valued functions.
-/

namespace Py2Md

/-- The character list underlying a string literal. -/
def chars (s : String) : List Char := s.data

/-- The single-quote character `'` (codepoint 39), written via `Char.ofNat`. -/
def quoteChar : Char := Char.ofNat 39

/-- The backslash character (codepoint 92). -/
def backslashChar : Char := Char.ofNat 92

/-- The Python triple-quote docstring delimiter, three single quotes. -/
def tq : List Char := [quoteChar, quoteChar, quoteChar]

/-- Models Python `s.startswith(pat)`: `pat` is an initial segment of `s`. -/
def isPre : List Char → List Char → Bool
  | [], _ => true
  | _ :: _, [] => false
  | c :: cs, b :: bs => c == b && isPre cs bs

/-- Models Python `pat in s`: `pat` occurs contiguously inside `s`. -/
def strIn (pat : List Char) : List Char → Bool
  | [] => isPre pat []
  | b :: t => isPre pat (b :: t) || strIn pat t

/-- Models Python `s.split(pat)[0]`: the part of `s` before the first
occurrence of `pat` (all of `s` if `pat` does not occur).  Python raises
`ValueError` on an empty separator; all separators in the program are
non-empty, so totality here is harmless. -/
def splitFirst (pat : List Char) : List Char → List Char
  | [] => []
  | b :: t => if isPre pat (b :: t) then [] else b :: splitFirst pat t

/-- The `while` loop of `extract_code` (`py2md.py`, lines 19-28), recast as
recursion over the remaining suffix of the line array: the loop reads
`str_array[line_num]`, stops on the line containing the marker (appending it
and returning its index), and otherwise appends the line and advances.
Running off the end of the array is Python's `IndexError`, modelled `none`. -/
def extractLoopAux (mark : List Char) : List Char → List (List Char) → Nat → Option (List Char × Nat)
  | _, [], _ => none
  | cur, next_line :: rest, line_num =>
    if strIn mark next_line then some (cur ++ next_line, line_num)
    else extractLoopAux mark (cur ++ next_line) rest (line_num + 1)

/-- `extract_code` (`py2md.py`, lines 7-30).  If the end marker is not in
`current_str`, lines are accumulated starting at `line_num + 1` until a line
containing the marker is found; the accumulated string is then cut at the
first occurrence of the marker.  `none` models the uncaught `IndexError`
raised when the loop runs past the end of `str_array`. -/
def extract_code (end_mark current_str : List Char) (str_array : List (List Char))
    (line_num : Nat) : Option (List Char × Nat) :=
  if strIn end_mark current_str then
    some (splitFirst end_mark current_str, line_num)
  else
    match extractLoopAux end_mark current_str (str_array.drop (line_num + 1)) (line_num + 1) with
    | some (acc, ln) => some (splitFirst end_mark acc, ln)
    | none => none

/-- The per-function metadata dictionary built by `process_file`: keys `name`,
`definition` and (optionally) `comments`. -/
structure FunctionInfo where
  name : List Char
  definition : List Char
  comments : Option (List Char)
deriving DecidableEq

/-- The per-file metadata dictionary built by `process_file`: keys `source_file`,
`summary_comment` and `functions`. -/
structure FileDict where
  source_file : List Char
  summary_comment : List Char
  functions : List FunctionInfo
deriving DecidableEq

/-- The top-level document dictionary passed to `process_output`: keys `header`
and `modules`. -/
structure MetaFile where
  header : List Char
  modules : List FileDict
deriving DecidableEq

/-- Models Python `s.strip(c)` for a single-character set `c`: removes every
leading and trailing occurrence of the quote character. -/
def stripQuote (s : List Char) : List Char :=
  ((s.dropWhile (fun c => c == quoteChar)).reverse.dropWhile (fun c => c == quoteChar)).reverse

/-- Models Python `list.index(x)`: the index of the first element equal to `x`
(callers in the program only apply it to members of the list). -/
def listIndex (x : List Char) : List (List Char) → Nat
  | [] => 0
  | a :: t => if a == x then 0 else listIndex x t + 1

/-- The body of the function-discovery loop of `process_file` (`py2md.py`,
lines 64-78), applied to one line starting with `def `: looks the line up by text
equality, extracts the signature up to the terminating colon, then probes the line
after the terminator line for a docstring.  `none` models the uncaught
`IndexError` when the extraction or the docstring probe runs past the buffer. -/
def function_record (pyfile_str : List (List Char)) (line : List Char) : Option FunctionInfo :=
  let line_num := listIndex line pyfile_str
  let fn_def := line.drop 4
  let fn_name := splitFirst (chars "(") fn_def
  match extract_code (chars ":") fn_def pyfile_str line_num with
  | none => none
  | some (defn, ln) =>
    match pyfile_str.get? (ln + 1) with
    | none => none
    | some doc_line =>
      if isPre (chars "    " ++ tq) doc_line then
        match extract_code tq (doc_line.drop 7) pyfile_str (ln + 1) with
        | none => none
        | some (c, _) => some { name := fn_name, definition := defn, comments := some c }
      else some { name := fn_name, definition := defn, comments := none }

/-- The `for line in pyfile_str` loop of `process_file`: every line starting with
`def ` contributes one function record, in source order; a failing record aborts
the scan. -/
def scanDefs (pyfile_str : List (List Char)) : List (List Char) → Option (List FunctionInfo)
  | [] => some []
  | line :: rest =>
    if isPre (chars "def ") line then
      match function_record pyfile_str line, scanDefs pyfile_str rest with
      | some fi, some fis => some (fi :: fis)
      | _, _ => none
    else scanDefs pyfile_str rest

/-- `process_file` (`py2md.py`, lines 33-79), with the file contents passed in as
the list of its lines (`pyfile_str = fpyfile.readlines()`): builds the summary from
the first line (`pyfile_str[0][:-1].strip("'")` when it starts with the triple
quote, else the file name), then scans every line for function definitions.
`none` models an uncaught `IndexError` (empty file, or a scan running past the
buffer). -/
def process_file (pyfile_name : List Char) (pyfile_str : List (List Char)) : Option FileDict :=
  match pyfile_str.get? 0 with
  | none => none
  | some first_line =>
    let summary := if isPre tq first_line then stripQuote first_line.dropLast else pyfile_name
    match scanDefs pyfile_str pyfile_str with
    | none => none
    | some fns =>
      some { source_file := pyfile_name.map (fun c => if c == backslashChar then '/' else c)
           , summary_comment := summary
           , functions := fns }

/-- Trimming surrounding whitespace, as the specification's summary rule
describes (the code never does this). -/
def trimWs (s : List Char) : List Char :=
  ((s.dropWhile Char.isWhitespace).reverse.dropWhile Char.isWhitespace).reverse

/-- The `chapter_link` expression of the table-of-contents loop (`py2md.py`,
line 103): `chapter_name.lstrip().replace('.', '').replace(' ', '-').lower()` —
leading whitespace trimmed, every period removed, every space replaced by a
hyphen, and the result lowercased (`Char.toLower` lowercases ASCII letters). -/
def chapter_link (chapter_name : List Char) : List Char :=
  (((chapter_name.dropWhile Char.isWhitespace).filter (fun c => !(c == '.'))).map
    (fun c => if c == ' ' then '-' else c)).map Char.toLower

/-- One iteration of the table-of-contents loop (`py2md.py`, lines 100-106):
appends `str(chapter_num) + '. [' + chapter_name + '](#' + chapter_link + ')\n'`
and increments the chapter counter. -/
def tocStep (st : List Char × Nat) (meta_doc : FileDict) : List Char × Nat :=
  (st.1 ++ chars (Nat.repr st.2) ++ chars ". [" ++ meta_doc.summary_comment
    ++ chars "](#" ++ chapter_link meta_doc.summary_comment ++ chars ")\n", st.2 + 1)

/-- One iteration of the per-function loop (`py2md.py`, lines 113-117): heading,
then the signature text followed by a blank line, then — only when a docstring
was recorded — a fenced code block with the docstring. -/
def fnStep (d2 : List Char) (function_info : FunctionInfo) : List Char :=
  let d3 := d2 ++ chars "### " ++ function_info.name ++ chars "\n"
    ++ function_info.definition ++ chars "\n\n"
  match function_info.comments with
  | some c => d3 ++ chars "```\n" ++ c ++ chars "\n```\n\n"
  | none => d3

/-- One iteration of the per-module loop (`py2md.py`, lines 109-117): section
heading with the summary, the source-link line, then every function. -/
def moduleStep (d : List Char) (meta_doc : FileDict) : List Char :=
  List.foldl fnStep
    (d ++ chars "## " ++ meta_doc.summary_comment ++ chars "\n"
      ++ chars "[source file](" ++ meta_doc.source_file ++ chars ")" ++ chars "\n")
    meta_doc.functions

/-- `process_output` (`py2md.py`, lines 82-123): builds the markdown text
`doc_str` — title line, generation line (with the `strftime` timestamp passed in
as `timestamp`), a table of contents when more than one module is present, then
one section per module.  The final file write is modelled by returning the text;
`code_links` is accepted and never used, exactly as in the source. -/
def process_output (meta_file : MetaFile) (timestamp : List Char) (code_links : Bool) :
    List Char :=
  let doc1 := chars "# " ++ meta_file.header ++ chars "\n"
    ++ chars "Generated by [py2md](https://github.com/gbowerman/py2md) on "
    ++ timestamp ++ chars "\n\n"
  let doc2 :=
    if 1 < meta_file.modules.length then
      (List.foldl tocStep (doc1 ++ chars "## Contents\n", 1) meta_file.modules).1
    else doc1
  List.foldl moduleStep doc2 meta_file.modules

/-- The fenced docstring block of one function subsection (empty when the
function has no recorded docstring). -/
def docBlock : Option (List Char) → List Char
  | some c => chars "```\n" ++ c ++ chars "\n```\n\n"
  | none => []

/-- The text one function contributes to the document. -/
def fnChunk (function_info : FunctionInfo) : List Char :=
  chars "### " ++ function_info.name ++ chars "\n"
    ++ function_info.definition ++ chars "\n\n" ++ docBlock function_info.comments

/-- The text one module contributes to the document body. -/
def moduleChunk (meta_doc : FileDict) : List Char :=
  chars "## " ++ meta_doc.summary_comment ++ chars "\n"
    ++ chars "[source file](" ++ meta_doc.source_file ++ chars ")" ++ chars "\n"
    ++ (meta_doc.functions.map fnChunk).flatten

/-- The table-of-contents entry for chapter number `n`. -/
def tocEntry (n : Nat) (meta_doc : FileDict) : List Char :=
  chars (Nat.repr n) ++ chars ". [" ++ meta_doc.summary_comment ++ chars "](#"
    ++ chapter_link meta_doc.summary_comment ++ chars ")\n"

/-- The title and generation lines of the document. -/
def headerChunk (meta_file : MetaFile) (timestamp : List Char) : List Char :=
  chars "# " ++ meta_file.header ++ chars "\n"
    ++ chars "Generated by [py2md](https://github.com/gbowerman/py2md) on "
    ++ timestamp ++ chars "\n\n"

/-- The table-of-contents section: present exactly when more than one module was
scanned. -/
def tocChunk (meta_file : MetaFile) : List Char :=
  if 1 < meta_file.modules.length then
    chars "## Contents\n"
      ++ ((List.enumFrom 1 meta_file.modules).map (fun p => tocEntry p.1 p.2)).flatten
  else []

/-- The document body: every module's section in order. -/
def bodyChunk (meta_file : MetaFile) : List Char :=
  (meta_file.modules.map moduleChunk).flatten

/-- A one-module model with one undocumented function, used to exhibit the
rendered shape of a function subsection. -/
def sampleMetaOne : MetaFile :=
  { header := chars "p"
  , modules := [{ source_file := chars "p/u.py", summary_comment := chars "s"
                , functions := [{ name := chars "add", definition := chars "add(a, b)"
                                , comments := none }] }] }

/-- A one-module model with one documented function. -/
def sampleMetaDoc : MetaFile :=
  { header := chars "p"
  , modules := [{ source_file := chars "p/u.py", summary_comment := chars "s"
                , functions := [{ name := chars "add", definition := chars "add(a, b)"
                                , comments := some (chars "Returns a + b.") }] }] }

/-- A two-module model, so that a table of contents is rendered. -/
def sampleMetaTwo : MetaFile :=
  { header := chars "h"
  , modules := [{ source_file := chars "a.py", summary_comment := chars "A b", functions := [] },
                { source_file := chars "b.py", summary_comment := chars "C", functions := [] }] }

/-- The file-selection loop of `main` (`py2md.py`, lines 154-159): every path
produced by the directory scan is skipped when it contains `__`, and otherwise
contributes the record `process_file` builds for it; `contents` maps a path to
the lines of the file stored there. -/
def scanModules (contents : List Char → List (List Char)) :
    List (List Char) → Option (List FileDict)
  | [] => some []
  | p :: rest =>
    if strIn (chars "__") p then scanModules contents rest
    else
      match process_file p (contents p), scanModules contents rest with
      | some fd, some fds => some (fd :: fds)
      | _, _ => none

/-- The paths produced by `glob.glob(source_dir + '/*.py')` (`py2md.py`,
line 154) for the given base names: the directory joined to each base name. -/
def globPaths (source_dir : List Char) (basenames : List (List Char)) : List (List Char) :=
  basenames.map (fun b => source_dir ++ chars "/" ++ b)

/-- Option-valued map over a list, failing when any element fails. -/
def mapO {α β : Type} (f : α → Option β) : List α → Option (List β)
  | [] => some []
  | a :: t =>
    match f a, mapO f t with
    | some b, some r => some (b :: r)
    | _, _ => none

theorem isPre_iff (pat : List Char) : ∀ s : List Char, isPre pat s = true ↔ ∃ t, s = pat ++ t := by
  induction pat with
  | nil =>
    intro s
    simp [isPre]
  | cons c cs ih =>
    intro s
    cases s with
    | nil =>
      simp [isPre]
    | cons b bs =>
      simp only [isPre, Bool.and_eq_true, beq_iff_eq]
      constructor
      · rintro ⟨rfl, h⟩
        obtain ⟨t, rfl⟩ := (ih bs).mp h
        exact ⟨t, rfl⟩
      · rintro ⟨t, ht⟩
        rw [List.cons_append] at ht
        injection ht with h1 h2
        exact ⟨h1.symm, (ih bs).mpr ⟨t, h2⟩⟩

theorem strIn_iff (pat : List Char) :
    ∀ s : List Char, strIn pat s = true ↔ ∃ a b, s = a ++ pat ++ b := by
  intro s
  induction s with
  | nil =>
    rw [show strIn pat [] = isPre pat [] from rfl, isPre_iff]
    constructor
    · rintro ⟨t, ht⟩
      exact ⟨[], t, by simpa using ht⟩
    · rintro ⟨a, b, h⟩
      have ha : a = [] := by
        cases a with
        | nil => rfl
        | cons x xs => simp at h
      subst ha
      exact ⟨b, by simpa using h⟩
  | cons c t ih =>
    rw [show strIn pat (c :: t) = (isPre pat (c :: t) || strIn pat t) from rfl]
    simp only [Bool.or_eq_true]
    constructor
    · rintro (h | h)
      · obtain ⟨r, hr⟩ := (isPre_iff pat (c :: t)).mp h
        exact ⟨[], r, by simpa using hr⟩
      · obtain ⟨a, b, hab⟩ := ih.mp h
        exact ⟨c :: a, b, by simp [hab]⟩
    · rintro ⟨a, b, hab⟩
      cases a with
      | nil =>
        left
        exact (isPre_iff pat (c :: t)).mpr ⟨b, by simpa using hab⟩
      | cons x xs =>
        right
        rw [List.cons_append, List.cons_append] at hab
        injection hab with h1 h2
        exact ih.mpr ⟨xs, b, h2⟩

theorem strIn_intro (pat a b s : List Char) (h : s = a ++ (pat ++ b)) : strIn pat s = true :=
  (strIn_iff pat s).mpr ⟨a, b, by simp [h]⟩

/-- `splitFirst pat s` is an initial segment of `s`. -/
theorem splitFirst_append_eq (pat : List Char) :
    ∀ s : List Char, ∃ r, splitFirst pat s ++ r = s := by
  intro s
  induction s with
  | nil => exact ⟨[], rfl⟩
  | cons b t ih =>
    by_cases h : isPre pat (b :: t) = true
    · exact ⟨b :: t, by simp [splitFirst, h]⟩
    · obtain ⟨r, hr⟩ := ih
      exact ⟨r, by simp [splitFirst, h, hr]⟩

theorem isPre_append_right (pat : List Char) :
    ∀ u w : List Char, isPre pat u = true → isPre pat (u ++ w) = true := by
  induction pat with
  | nil => intro u w _; rfl
  | cons c cs ih =>
    intro u w h
    cases u with
    | nil => exact absurd h (by simp [isPre])
    | cons b bs =>
      simp only [isPre, Bool.and_eq_true, beq_iff_eq] at h ⊢
      exact ⟨h.1, ih bs w h.2⟩

/-- The text before the first occurrence of a non-empty `pat` does not
contain `pat`. -/
theorem strIn_splitFirst (pat : List Char) (hne : pat ≠ []) :
    ∀ s : List Char, strIn pat (splitFirst pat s) = false := by
  intro s
  induction s with
  | nil =>
    cases pat with
    | nil => exact absurd rfl hne
    | cons c cs => rfl
  | cons b t ih =>
    by_cases h : isPre pat (b :: t) = true
    · rw [show splitFirst pat (b :: t) = [] from by simp [splitFirst, h]]
      cases pat with
      | nil => exact absurd rfl hne
      | cons c cs => rfl
    · rw [show splitFirst pat (b :: t) = b :: splitFirst pat t from by simp [splitFirst, h]]
      rw [show strIn pat (b :: splitFirst pat t) =
            (isPre pat (b :: splitFirst pat t) || strIn pat (splitFirst pat t)) from rfl]
      rw [ih, Bool.or_false]
      by_contra hpre
      rw [Bool.not_eq_false] at hpre
      obtain ⟨r, hr⟩ := splitFirst_append_eq pat t
      have : isPre pat ((b :: splitFirst pat t) ++ r) = true := isPre_append_right pat _ r hpre
      rw [List.cons_append, hr] at this
      exact h this

theorem extractLoopAux_spec (mark : List Char) :
    ∀ (rest : List (List Char)) (cur : List Char) (i : Nat),
      (∃ l, l ∈ rest ∧ strIn mark l = true) →
      ∃ k l, rest.get? k = some l ∧ strIn mark l = true ∧
        (∀ k' l', k' < k → rest.get? k' = some l' → strIn mark l' = false) ∧
        extractLoopAux mark cur rest i = some (cur ++ (rest.take (k + 1)).flatten, i + k) := by
  intro rest
  induction rest with
  | nil =>
    rintro cur i ⟨l, hl, _⟩
    exact absurd hl (List.not_mem_nil l)
  | cons next t ih =>
    rintro cur i ⟨l, hl, hml⟩
    by_cases hn : strIn mark next = true
    · refine ⟨0, next, rfl, hn, ?_, ?_⟩
      · intro k' l' hk' _
        exact absurd hk' (Nat.not_lt_zero k')
      · simp [extractLoopAux, hn]
    · have hlt : l ∈ t := by
        rcases List.mem_cons.mp hl with h | h
        · exact absurd (h ▸ hml) hn
        · exact h
      obtain ⟨k, l0, hget, hmark, hmin, heq⟩ := ih (cur ++ next) (i + 1) ⟨l, hlt, hml⟩
      refine ⟨k + 1, l0, by simpa using hget, hmark, ?_, ?_⟩
      · intro k' l' hk' hget'
        cases k' with
        | zero =>
          simp only [List.get?] at hget'
          injection hget' with h
          subst h
          exact Bool.eq_false_iff.mpr hn
        | succ k'' =>
          simp only [List.get?] at hget'
          exact hmin k'' l' (Nat.lt_of_succ_lt_succ hk') hget'
      · rw [show extractLoopAux mark cur (next :: t) i
              = extractLoopAux mark (cur ++ next) t (i + 1) from by simp [extractLoopAux, hn]]
        rw [heq]
        simp [List.flatten, List.append_assoc]
        omega

/-- C1: for every call `extract_code(end_mark, current_str, str_array, line_num)` in
which `current_str` is `str_array[line_num]`, the end marker is non-empty (the
extractor contract requires a non-empty delimiter) and some line of `str_array` at an
index `≥ line_num` contains the end marker, the call succeeds and returns the
concatenation of the lines from the seed line through the marker line truncated at
the first occurrence of the marker — a text that does not contain the marker — along
with the index of the first line at or after `line_num` containing the marker. -/
theorem extract_code_spec (mark cur : List Char) (arr : List (List Char)) (i : Nat)
    (hmark : mark ≠ [])
    (hcur : arr.get? i = some cur)
    (hexists : ∃ j l, i ≤ j ∧ arr.get? j = some l ∧ strIn mark l = true) :
    ∃ idx,
      extract_code mark cur arr i
        = some (splitFirst mark ((arr.drop i).take (idx + 1 - i)).flatten, idx) ∧
      strIn mark (splitFirst mark ((arr.drop i).take (idx + 1 - i)).flatten) = false ∧
      i ≤ idx ∧
      (∃ l, arr.get? idx = some l ∧ strIn mark l = true) ∧
      (∀ k l, i ≤ k → k < idx → arr.get? k = some l → strIn mark l = false) := by
  obtain ⟨hlt, hget⟩ := List.get?_eq_some.mp hcur
  have hdrop : arr.drop i = cur :: arr.drop (i + 1) := by
    rw [List.drop_eq_get_cons hlt, hget]
  by_cases hc : strIn mark cur = true
  · refine ⟨i, ?_, ?_, le_refl i, ⟨cur, hcur, hc⟩, ?_⟩
    · have htake : ((arr.drop i).take (i + 1 - i)).flatten = cur := by
        have h1 : i + 1 - i = 1 := by omega
        rw [h1, hdrop]
        simp
      rw [htake]
      simp [extract_code, hc]
    · have htake : ((arr.drop i).take (i + 1 - i)).flatten = cur := by
        have h1 : i + 1 - i = 1 := by omega
        rw [h1, hdrop]
        simp
      rw [htake]
      exact strIn_splitFirst mark hmark cur
    · intro k l hik hki
      omega
  · obtain ⟨j, l, hij, hjget, hjml⟩ := hexists
    have hji : j ≠ i := by
      intro e
      subst e
      rw [hjget] at hcur
      injection hcur with e'
      subst e'
      exact hc hjml
    have hmem : l ∈ arr.drop (i + 1) := by
      have : (arr.drop (i + 1)).get? (j - (i + 1)) = some l := by
        rw [List.get?_drop]
        have : i + 1 + (j - (i + 1)) = j := by omega
        rw [this, hjget]
      exact List.get?_mem this
    obtain ⟨k, l0, hkget, hkml, hkmin, heq⟩ :=
      extractLoopAux_spec mark (arr.drop (i + 1)) cur (i + 1) ⟨l, hmem, hjml⟩
    have hidxget : arr.get? (i + 1 + k) = some l0 := by
      rw [← List.get?_drop]
      exact hkget
    have htake : ((arr.drop i).take (i + 1 + k + 1 - i)).flatten
        = cur ++ ((arr.drop (i + 1)).take (k + 1)).flatten := by
      have h1 : i + 1 + k + 1 - i = (k + 1) + 1 := by omega
      rw [h1, hdrop, List.take_succ_cons]
      simp
    refine ⟨i + 1 + k, ?_, ?_, by omega, ⟨l0, hidxget, hkml⟩, ?_⟩
    · rw [htake]
      simp only [extract_code, hc, Bool.false_eq_true, if_false, heq]
    · rw [htake]
      exact strIn_splitFirst mark hmark _
    · intro k' l' hik' hk' hget'
      rcases Nat.eq_or_lt_of_le hik' with h | h
      · subst h
        rw [hget'] at hcur
        injection hcur with e'
        subst e'
        exact Bool.eq_false_iff.mpr hc
      · have hdk : (arr.drop (i + 1)).get? (k' - (i + 1)) = some l' := by
          rw [List.get?_drop]
          have : i + 1 + (k' - (i + 1)) = k' := by omega
          rw [this, hget']
        exact hkmin (k' - (i + 1)) l' (by omega) hdk

/-- Witness for `extract_code_spec`: a signature wrapping onto a second line, with
the colon terminator on line 1. -/
theorem extract_code_spec_witness :
    ∃ idx,
      extract_code (chars ":") (chars "def f(") [chars "def f(", chars "x):"] 0
        = some (splitFirst (chars ":")
            ((([chars "def f(", chars "x):"].drop 0).take (idx + 1 - 0)).flatten), idx) ∧
      strIn (chars ":")
        (splitFirst (chars ":")
          ((([chars "def f(", chars "x):"].drop 0).take (idx + 1 - 0)).flatten)) = false ∧
      0 ≤ idx ∧
      (∃ l, [chars "def f(", chars "x):"].get? idx = some l ∧ strIn (chars ":") l = true) ∧
      (∀ k l, 0 ≤ k → k < idx → [chars "def f(", chars "x):"].get? k = some l →
        strIn (chars ":") l = false) :=
  extract_code_spec (chars ":") (chars "def f(") [chars "def f(", chars "x):"] 0
    (by decide) rfl ⟨1, chars "x):", by omega, rfl, by decide⟩

/-- C2 helper: when the marker occurs in no line of the suffix, the accumulation
loop runs off the end of the array and fails (Python's `IndexError`). -/
theorem extractLoopAux_none (mark : List Char) :
    ∀ (rest : List (List Char)) (cur : List Char) (i : Nat),
      (∀ l, l ∈ rest → strIn mark l = false) →
      extractLoopAux mark cur rest i = none := by
  intro rest
  induction rest with
  | nil => intro cur i _; rfl
  | cons next t ih =>
    intro cur i hall
    have hn : strIn mark next = false := hall next (List.mem_cons_self next t)
    rw [show extractLoopAux mark cur (next :: t) i
          = extractLoopAux mark (cur ++ next) t (i + 1) from by simp [extractLoopAux, hn]]
    exact ih (cur ++ next) (i + 1) (fun l hl => hall l (List.mem_cons_of_mem next hl))

/-- When the end marker occurs neither in the seed string nor in any line of the
array after `line_num`, `extract_code` aborts (the Python code raises an uncaught
`IndexError` from `str_array[line_num]` once `line_num` passes the end of the
buffer; the checked list access never reads past the end). -/
theorem extract_code_unterminated (mark cur : List Char) (arr : List (List Char)) (i : Nat)
    (hc : strIn mark cur = false)
    (hall : ∀ j l, i < j → arr.get? j = some l → strIn mark l = false) :
    extract_code mark cur arr i = none := by
  have hnone : extractLoopAux mark cur (arr.drop (i + 1)) (i + 1) = none := by
    apply extractLoopAux_none
    intro l hl
    obtain ⟨k, hk⟩ := List.get_of_mem hl
    have hget : (arr.drop (i + 1)).get? k.1 = some l := by
      rw [List.get?_eq_get k.2, hk]
    rw [List.get?_drop] at hget
    exact hall (i + 1 + k.1) l (by omega) hget
  simp only [extract_code, hc, Bool.false_eq_true, if_false, hnone]

/-- C2: the concrete unterminated input `extract_code(':', 'x', ['x'], 0)`: the colon
terminator appears nowhere, and the call aborts with Python's `IndexError` (modelled
`none`) instead of reporting a `MalformedSourceError` — no such error type exists
anywhere in the program. -/
theorem extract_code_unterminated_eval :
    extract_code (chars ":") (chars "x") [chars "x"] 0 = none := rfl

/-- C5 counterexample: on a file whose first line is `'''  hi '''`, the computed
summary is `  hi ` — the quotes are stripped but the surrounding whitespace is
kept, so the summary is not whitespace-trimmed as the claim states. -/
theorem process_file_summary_untrimmed :
    ∃ fd, process_file (chars "f.py") [tq ++ chars "  hi " ++ tq ++ chars "\n"] = some fd
      ∧ trimWs fd.summary_comment ≠ fd.summary_comment :=
  ⟨{ source_file := chars "f.py", summary_comment := chars "  hi ", functions := [] },
    by decide, by decide⟩

/-- C5 as amended: for every scanned file with a first line, if that line begins
with the triple-quote opener then the summary is the line with its final character
dropped and all leading and trailing quote characters stripped (with no whitespace
trimming); otherwise the summary is the file's own path. -/
theorem process_file_summary (name first_line : List Char) (lines : List (List Char))
    (fd : FileDict)
    (h0 : lines.get? 0 = some first_line) (h : process_file name lines = some fd) :
    fd.summary_comment
      = if isPre tq first_line then stripQuote first_line.dropLast else name := by
  simp only [process_file] at h
  rw [h0] at h
  cases hscan : scanDefs lines lines with
  | none => rw [hscan] at h; exact absurd h (by simp)
  | some fns =>
    rw [hscan] at h
    injection h with h'
    subst h'
    rfl

/-- Witness for `process_file_summary`: a file whose first line is not a
docstring, so the summary defaults to the file's own path. -/
theorem process_file_summary_witness :
    ({ source_file := chars "a.py", summary_comment := chars "a.py", functions := [] }
        : FileDict).summary_comment
      = if isPre tq (chars "x = 1\n") then stripQuote (chars "x = 1\n").dropLast
        else chars "a.py" :=
  process_file_summary (chars "a.py") (chars "x = 1\n") [chars "x = 1\n"] _ rfl rfl

/-- The scan of the whole line list produces exactly one record per line starting
with `def `, aligned index by index with the filtered sub-list of those lines. -/
theorem scanDefs_spec (arr : List (List Char)) :
    ∀ (l : List (List Char)) (r : List FunctionInfo),
      scanDefs arr l = some r →
      r.length = (l.filter (fun s => isPre (chars "def ") s)).length ∧
      ∀ k, ((l.filter (fun s => isPre (chars "def ") s)).get? k).bind (function_record arr)
            = r.get? k := by
  intro l
  induction l with
  | nil =>
    intro r h
    injection h with h
    subst h
    refine ⟨rfl, fun k => ?_⟩
    cases k <;> rfl
  | cons a t ih =>
    intro r h
    by_cases hd : isPre (chars "def ") a = true
    · simp only [scanDefs, hd, if_true] at h
      cases hfr : function_record arr a with
      | none => rw [hfr] at h; exact absurd h (by simp)
      | some fi =>
        cases hsd : scanDefs arr t with
        | none => rw [hfr, hsd] at h; exact absurd h (by simp)
        | some fis =>
          rw [hfr, hsd] at h
          injection h with h'
          subst h'
          obtain ⟨hlen, hidx⟩ := ih fis hsd
          rw [List.filter_cons_of_pos hd]
          refine ⟨by simpa using hlen, fun k => ?_⟩
          cases k with
          | zero => simpa using hfr
          | succ k' => simpa using hidx k'
    · have hd' : isPre (chars "def ") a = false := Bool.eq_false_iff.mpr hd
      simp only [scanDefs, hd', Bool.false_eq_true, if_false] at h
      rw [List.filter_cons_of_neg (by simp [hd'])]
      exact ih r h

/-- If `function_record` succeeds, the recorded name comes from the line's text:
everything after the `def ` keyword and before the first opening parenthesis. -/
theorem function_record_name (arr : List (List Char)) (line : List Char) (fi : FunctionInfo)
    (h : function_record arr line = some fi) :
    fi.name = splitFirst (chars "(") (line.drop 4) := by
  simp only [function_record] at h
  repeat' split at h
  all_goals first
    | exact Option.noConfusion h
    | (injection h with h'; subst h'; rfl)

/-- C9: when `process_file` succeeds, its function list has exactly one record per
line beginning with `def `, and record `k` is the record built from the `k`-th such
line — in particular its name is parsed from that line — so discovery order matches
the order the definition lines appear in the file. -/
theorem process_file_order (name : List Char) (lines : List (List Char)) (fd : FileDict)
    (h : process_file name lines = some fd) :
    fd.functions.length = (lines.filter (fun s => isPre (chars "def ") s)).length ∧
    ∀ k fi dl, fd.functions.get? k = some fi →
      (lines.filter (fun s => isPre (chars "def ") s)).get? k = some dl →
      function_record lines dl = some fi ∧ fi.name = splitFirst (chars "(") (dl.drop 4) := by
  simp only [process_file] at h
  cases h0 : lines.get? 0 with
  | none => rw [h0] at h; exact absurd h (by simp)
  | some first_line =>
    rw [h0] at h
    cases hscan : scanDefs lines lines with
    | none => rw [hscan] at h; exact absurd h (by simp)
    | some fns =>
      rw [hscan] at h
      injection h with h'
      subst h'
      obtain ⟨hlen, hidx⟩ := scanDefs_spec lines lines fns hscan
      refine ⟨hlen, fun k fi dl hfi hdl => ?_⟩
      have hbind := hidx k
      rw [hdl, hfi] at hbind
      have hfrd : function_record lines dl = some fi := hbind
      exact ⟨hfrd, function_record_name lines dl fi hfrd⟩

/-- Witness for `process_file_order`: a file with a summary line and one documented
function, scanned successfully into one record. -/
theorem process_file_order_witness :
    process_file (chars "u.py")
        [tq ++ chars "m" ++ tq ++ chars "\n", chars "def f():\n",
          chars "    " ++ tq ++ chars "d" ++ tq ++ chars "\n"]
      = some { source_file := chars "u.py", summary_comment := chars "m"
             , functions := [{ name := chars "f", definition := chars "f()"
                             , comments := some (chars "d") }] }
    ∧ ({ source_file := chars "u.py", summary_comment := chars "m"
       , functions := [{ name := chars "f", definition := chars "f()"
                       , comments := some (chars "d") }] } : FileDict).functions.length
      = ([tq ++ chars "m" ++ tq ++ chars "\n", chars "def f():\n",
          chars "    " ++ tq ++ chars "d" ++ tq ++ chars "\n"].filter
            (fun s => isPre (chars "def ") s)).length :=
  ⟨by decide, (process_file_order (chars "u.py") _ _ (by decide)).1⟩

/-- If one `def ` line's record fails, the whole scan fails. -/
theorem scanDefs_none (arr : List (List Char)) :
    ∀ (l : List (List Char)) (line : List Char), line ∈ l →
      isPre (chars "def ") line = true → function_record arr line = none →
      scanDefs arr l = none := by
  intro l
  induction l with
  | nil => intro line hmem; exact absurd hmem (List.not_mem_nil line)
  | cons a t ih =>
    intro line hmem hdef hfr
    rcases List.mem_cons.mp hmem with h | h
    · subst h
      cases hsd : scanDefs arr t <;> simp [scanDefs, hdef, hfr, hsd]
    · have hrec : scanDefs arr t = none := ih line h hdef hfr
      by_cases hda : isPre (chars "def ") a = true
      · cases hfa : function_record arr a <;> simp [scanDefs, hda, hrec, hfa]
      · simp [scanDefs, Bool.eq_false_iff.mpr hda, hrec]

/-- C10: `process_file` indexes `pyfile_str[0]` unconditionally, so it fails on an
empty file; and after extracting a signature it unconditionally indexes the line
after the terminator line to probe for a docstring, so a file whose last function
definition has its terminating colon on the final line makes the scan fail with an
out-of-range access (modelled `none`) even though the definition is well formed. -/
theorem process_file_overrun (name : List Char) :
    process_file name [] = none ∧
    ∀ (lines : List (List Char)) (line defn : List Char) (ln : Nat),
      line ∈ lines → isPre (chars "def ") line = true →
      extract_code (chars ":") (line.drop 4) lines (listIndex line lines) = some (defn, ln) →
      lines.length = ln + 1 →
      process_file name lines = none := by
  refine ⟨rfl, fun lines line defn ln hmem hdef hx hlen => ?_⟩
  have hfr : function_record lines line = none := by
    simp only [function_record, hx]
    have hnone : lines.get? (ln + 1) = none := List.get?_eq_none.mpr (by omega)
    rw [hnone]
  have hscan : scanDefs lines lines = none := scanDefs_none lines lines line hmem hdef hfr
  cases lines with
  | nil => exact absurd hmem (List.not_mem_nil line)
  | cons l0 rest =>
    simp only [process_file, hscan]
    rfl

/-- Witness for `process_file_overrun`: a one-line file whose single definition has
its colon on the final line; the docstring probe indexes past the end. -/
theorem process_file_overrun_witness :
    process_file (chars "x.py") [chars "def f():"] = none :=
  (process_file_overrun (chars "x.py")).2 [chars "def f():"] (chars "def f():") (chars "f()") 0
    (by decide) rfl rfl rfl

theorem foldl_chunks {α : Type} (step : List Char → α → List Char) (g : α → List Char)
    (hstep : ∀ d x, step d x = d ++ g x) :
    ∀ (l : List α) (d : List Char), List.foldl step d l = d ++ (l.map g).flatten := by
  intro l
  induction l with
  | nil => intro d; simp
  | cons x t ih =>
    intro d
    rw [List.foldl_cons, hstep, ih]
    simp [List.append_assoc]

theorem foldl_chunks_count {α : Type} (step : List Char × Nat → α → List Char × Nat)
    (g : Nat → α → List Char)
    (hstep : ∀ st x, step st x = (st.1 ++ g st.2 x, st.2 + 1)) :
    ∀ (l : List α) (d : List Char) (n : Nat),
      (List.foldl step (d, n) l).1
        = d ++ ((List.enumFrom n l).map (fun p => g p.1 p.2)).flatten := by
  intro l
  induction l with
  | nil => intro d n; simp [List.enumFrom]
  | cons x t ih =>
    intro d n
    rw [List.foldl_cons, hstep, ih]
    simp [List.enumFrom, List.append_assoc]

theorem fnStep_eq (d2 : List Char) (fi : FunctionInfo) : fnStep d2 fi = d2 ++ fnChunk fi := by
  cases hc : fi.comments <;> simp [fnStep, hc, fnChunk, docBlock, List.append_assoc]

theorem moduleStep_eq (d : List Char) (m : FileDict) : moduleStep d m = d ++ moduleChunk m := by
  rw [moduleStep, foldl_chunks fnStep fnChunk fnStep_eq]
  simp [moduleChunk, List.append_assoc]

theorem tocStep_eq (st : List Char × Nat) (m : FileDict) :
    tocStep st m = (st.1 ++ tocEntry st.2 m, st.2 + 1) := by
  simp [tocStep, tocEntry, List.append_assoc]

/-- The monolithic `doc_str` accumulation decomposes into header, table of
contents and body. -/
theorem process_output_eq (meta_file : MetaFile) (timestamp : List Char) (code_links : Bool) :
    process_output meta_file timestamp code_links
      = headerChunk meta_file timestamp ++ tocChunk meta_file ++ bodyChunk meta_file := by
  show List.foldl moduleStep
      (if 1 < meta_file.modules.length then
        (List.foldl tocStep (headerChunk meta_file timestamp ++ chars "## Contents\n", 1)
          meta_file.modules).1
      else headerChunk meta_file timestamp) meta_file.modules = _
  rw [foldl_chunks moduleStep moduleChunk moduleStep_eq]
  by_cases hlen : 1 < meta_file.modules.length
  · rw [if_pos hlen, foldl_chunks_count tocStep tocEntry tocStep_eq, tocChunk, if_pos hlen]
    simp [bodyChunk, List.append_assoc]
  · rw [if_neg hlen, tocChunk, if_neg hlen]
    simp [bodyChunk]

theorem flatten_decomp {α : Type} (g : α → List Char) (x : α) :
    ∀ l : List α, x ∈ l → ∃ a b, (l.map g).flatten = a ++ (g x ++ b) := by
  intro l
  induction l with
  | nil => intro h; exact absurd h (List.not_mem_nil x)
  | cons y t ih =>
    intro h
    rcases List.mem_cons.mp h with h | h
    · subst h
      exact ⟨[], (t.map g).flatten, by simp⟩
    · obtain ⟨a, b, hab⟩ := ih h
      exact ⟨g y ++ a, b, by simp [hab, List.append_assoc]⟩

theorem mem_enumFrom_of_mem {α : Type} (x : α) :
    ∀ (l : List α) (k : Nat), x ∈ l → ∃ n, (n, x) ∈ List.enumFrom k l := by
  intro l
  induction l with
  | nil => intro k h; exact absurd h (List.not_mem_nil x)
  | cons y t ih =>
    intro k h
    rcases List.mem_cons.mp h with h | h
    · subst h
      exact ⟨k, by rw [show List.enumFrom k (x :: t) = (k, x) :: List.enumFrom (k + 1) t from rfl]
                   exact List.mem_cons_self (k, x) (List.enumFrom (k + 1) t)⟩
    · obtain ⟨n, hn⟩ := ih (k + 1) h
      exact ⟨n, by rw [show List.enumFrom k (y :: t) = (k, y) :: List.enumFrom (k + 1) t from rfl]
                   exact List.mem_cons_of_mem (k, y) hn⟩

/-- C3 counterexample: for a model with one undocumented function, the rendered
document contains the subsection heading and the signature text, but contains no
code fence at all — so there is no fenced code block containing the signature. -/
theorem process_output_signature_not_fenced :
    strIn (chars "### add\n" ++ chars "add(a, b)" ++ chars "\n\n")
      (process_output sampleMetaOne (chars "T") false) = true
    ∧ strIn (chars "```") (process_output sampleMetaOne (chars "T") false) = false := by
  decide

/-- C3 as amended: for every function of every module, the rendered document
contains a subsection made of the heading `### name`, then the signature text
followed by a blank line (not inside a code fence), then — when a docstring is
present — a fenced code block containing the docstring text. -/
theorem process_output_function_subsection (meta_file : MetaFile) (timestamp : List Char)
    (code_links : Bool) (m : FileDict) (fi : FunctionInfo)
    (hm : m ∈ meta_file.modules) (hf : fi ∈ m.functions) :
    strIn (chars "### " ++ fi.name ++ chars "\n" ++ fi.definition ++ chars "\n\n"
        ++ docBlock fi.comments)
      (process_output meta_file timestamp code_links) = true := by
  obtain ⟨a, b, hab⟩ := flatten_decomp moduleChunk m meta_file.modules hm
  obtain ⟨a2, b2, hab2⟩ := flatten_decomp fnChunk fi m.functions hf
  apply strIn_intro _
    (headerChunk meta_file timestamp ++ tocChunk meta_file ++ a
      ++ (chars "## " ++ m.summary_comment ++ chars "\n"
        ++ chars "[source file](" ++ m.source_file ++ chars ")" ++ chars "\n") ++ a2)
    (b2 ++ b)
  rw [process_output_eq, bodyChunk, hab, moduleChunk, hab2]
  simp [fnChunk, List.append_assoc]

/-- Witness for `process_output_function_subsection`: the documented sample
function's subsection, docstring block included, occurs in the rendered text. -/
theorem process_output_function_subsection_witness :
    strIn (chars "### " ++ chars "add" ++ chars "\n" ++ chars "add(a, b)" ++ chars "\n\n"
        ++ docBlock (some (chars "Returns a + b.")))
      (process_output sampleMetaDoc (chars "T") true) = true :=
  process_output_function_subsection sampleMetaDoc (chars "T") true
    { source_file := chars "p/u.py", summary_comment := chars "s"
    , functions := [{ name := chars "add", definition := chars "add(a, b)"
                    , comments := some (chars "Returns a + b.") }] }
    { name := chars "add", definition := chars "add(a, b)"
    , comments := some (chars "Returns a + b.") }
    (by decide) (by decide)

/-- C6: the rendered document is header, then table-of-contents section, then
body, and the table-of-contents section is empty if and only if at most one file
record was produced — so a table of contents appears exactly when more than one
file was scanned. -/
theorem process_output_toc_iff (meta_file : MetaFile) (timestamp : List Char)
    (code_links : Bool) :
    process_output meta_file timestamp code_links
      = headerChunk meta_file timestamp ++ tocChunk meta_file ++ bodyChunk meta_file
    ∧ (tocChunk meta_file = [] ↔ meta_file.modules.length ≤ 1) := by
  refine ⟨process_output_eq meta_file timestamp code_links, ?_⟩
  by_cases hlen : 1 < meta_file.modules.length
  · rw [tocChunk, if_pos hlen]
    constructor
    · intro h
      have hl := congrArg List.length h
      rw [List.length_append, List.length_nil] at hl
      have h12 : (chars "## Contents\n").length = 12 := rfl
      rw [h12] at hl
      omega
    · intro h
      exact absurd h (by omega)
  · rw [tocChunk, if_neg hlen]
    exact ⟨fun _ => by omega, fun _ => rfl⟩

/-- C7: whenever a table of contents is rendered, every module's entry appears in
the document with a link anchor equal to its summary transformed by trimming
leading whitespace, removing periods, replacing spaces with hyphens and
lowercasing (`chapter_link`). -/
theorem process_output_toc_anchor (meta_file : MetaFile) (timestamp : List Char)
    (code_links : Bool) (m : FileDict)
    (hm : m ∈ meta_file.modules) (hlen : 1 < meta_file.modules.length) :
    ∃ n, strIn (chars (Nat.repr n) ++ chars ". [" ++ m.summary_comment ++ chars "](#"
          ++ chapter_link m.summary_comment ++ chars ")\n")
        (process_output meta_file timestamp code_links) = true := by
  obtain ⟨n, hn⟩ := mem_enumFrom_of_mem m meta_file.modules 1 hm
  obtain ⟨a, b, hab⟩ :=
    flatten_decomp (fun p => tocEntry p.1 p.2) (n, m) (List.enumFrom 1 meta_file.modules) hn
  refine ⟨n, ?_⟩
  apply strIn_intro _ (headerChunk meta_file timestamp ++ chars "## Contents\n" ++ a)
    (b ++ bodyChunk meta_file)
  rw [process_output_eq, tocChunk, if_pos hlen, hab]
  simp [tocEntry, List.append_assoc]

/-- Witness for `process_output_toc_anchor`: with two modules, the first module's
entry — anchor `a-b` derived from summary `A b` — appears in the document. -/
theorem process_output_toc_anchor_witness :
    ∃ n, strIn (chars (Nat.repr n) ++ chars ". [" ++ chars "A b" ++ chars "](#"
          ++ chapter_link (chars "A b") ++ chars ")\n")
        (process_output sampleMetaTwo (chars "T") false) = true :=
  process_output_toc_anchor sampleMetaTwo (chars "T") false
    { source_file := chars "a.py", summary_comment := chars "A b", functions := [] }
    (by decide) (by decide)

/-- C8: the rendered markdown is identical whatever the `code_links` flag is —
the parameter is never consulted — and in particular the per-file source-link
line is emitted unconditionally for every module. -/
theorem process_output_codelinks (meta_file : MetaFile) (timestamp : List Char)
    (b1 b2 : Bool) (m : FileDict) (hm : m ∈ meta_file.modules) :
    process_output meta_file timestamp b1 = process_output meta_file timestamp b2
    ∧ strIn (chars "[source file](" ++ m.source_file ++ chars ")" ++ chars "\n")
        (process_output meta_file timestamp b1) = true := by
  refine ⟨rfl, ?_⟩
  obtain ⟨a, b, hab⟩ := flatten_decomp moduleChunk m meta_file.modules hm
  apply strIn_intro _
    (headerChunk meta_file timestamp ++ tocChunk meta_file ++ a
      ++ (chars "## " ++ m.summary_comment ++ chars "\n"))
    ((m.functions.map fnChunk).flatten ++ b)
  rw [process_output_eq, bodyChunk, hab, moduleChunk]
  simp [List.append_assoc]

/-- Witness for `process_output_codelinks`: flag on and off render the same text,
and the sample module's source-link line occurs in it. -/
theorem process_output_codelinks_witness :
    process_output sampleMetaOne (chars "T") true = process_output sampleMetaOne (chars "T") false
    ∧ strIn (chars "[source file](" ++ chars "p/u.py" ++ chars ")" ++ chars "\n")
        (process_output sampleMetaOne (chars "T") true) = true :=
  process_output_codelinks sampleMetaOne (chars "T") true false
    { source_file := chars "p/u.py", summary_comment := chars "s"
    , functions := [{ name := chars "add", definition := chars "add(a, b)"
                    , comments := none }] }
    (by decide)

/-- C4 counterexample: in a source directory named `a__b`, the file `u.py` — whose
filename contains no double underscore — is nevertheless skipped, because the code
tests the whole path for `__`; the scan yields no file record. -/
theorem scanModules_skips_by_path :
    scanModules (fun _ => []) (globPaths (chars "a__b") [chars "u.py"]) = some []
    ∧ strIn (chars "__") (chars "u.py") = false := by
  decide

/-- C4 as amended: a scanned path is processed exactly when the full path does not
contain a double-underscore substring; skipped paths contribute no file record,
and the processed ones contribute their records in order. -/
theorem scanModules_eq_filter (contents : List Char → List (List Char)) :
    ∀ paths : List (List Char),
      scanModules contents paths
        = mapO (fun p => process_file p (contents p))
            (paths.filter (fun p => !(strIn (chars "__") p))) := by
  intro paths
  induction paths with
  | nil => rfl
  | cons p rest ih =>
    by_cases hp : strIn (chars "__") p = true
    · rw [show scanModules contents (p :: rest) = scanModules contents rest
            from by simp [scanModules, hp]]
      rw [List.filter_cons_of_neg (by simp [hp])]
      exact ih
    · have hp' : strIn (chars "__") p = false := Bool.eq_false_iff.mpr hp
      rw [List.filter_cons_of_pos (by simp [hp'])]
      rw [show scanModules contents (p :: rest)
            = (match process_file p (contents p), scanModules contents rest with
               | some fd, some fds => some (fd :: fds)
               | _, _ => none)
            from by simp [scanModules, hp']]
      rw [ih]
      cases hpf : process_file p (contents p) <;>
        cases hmo : mapO (fun q => process_file q (contents q))
          (rest.filter (fun q => !(strIn (chars "__") q))) <;>
        simp [mapO, hpf, hmo]

end Py2Md
